import Mathlib

open scoped List

/- Verification of the storage core of the file-uploader repository.

   The JavaScript source (db/queries) is a layer of Prisma calls over three
   tables: Folder, File and ShareLink.  We embed that layer shallowly: the
   database becomes an explicit `Store` value, `prisma.<table>.findMany`,
   `create`, `update`, `delete` and `deleteMany` become list operations, and
   every exported query function becomes a pure Lean function over `Store`.

   The two recursive tree walks of the source (`findDescendantFolders` and
   `deleteFolder`) are not structurally recursive over the store, so they take
   an explicit `fuel` argument.  One unit of fuel corresponds to one nested
   invocation of the corresponding JS function, i.e. to one call-stack frame:
   a run that returns `none` for lack of fuel is exactly a run whose
   call-stack allowance was exceeded.  `s.folders.length + 1` fuel always
   suffices on an acyclic store (proved below). -/

/-- A row of the Folder table: `id`, `name`, owning `userId`, and nullable
`parentId` (`none` for a user's root "Home" folder). -/
structure Folder where
  id : Nat
  name : String
  userId : Nat
  parentId : Option Nat
deriving DecidableEq, Repr

/-- A row of the File table. -/
structure File where
  id : Nat
  name : String
  path : String
  size : Nat
  folderId : Nat
deriving DecidableEq, Repr

/-- A row of the ShareLink table; `expiresAt` is a timestamp. -/
structure ShareLink where
  id : Nat
  folderId : Nat
  expiresAt : Int
deriving DecidableEq, Repr

/-- The database state: the three tables plus the auto-increment counters
used by `prisma.folder.create` and `prisma.shareLink.create`. -/
structure Store where
  folders : List Folder
  files : List File
  shareLinks : List ShareLink
  nextFolderId : Nat
  nextLinkId : Nat
deriving DecidableEq, Repr

/-- The ids of all folder rows of the store. -/
def ids (s : Store) : List Nat := s.folders.map (fun f => f.id)

/-- Embeds `createHomeFolder(userId)`: inserts a folder named "Home" for the
user, with `parentId` omitted in the source, hence null. -/
def createHomeFolder (s : Store) (userId : Nat) : Store :=
  { s with
    folders := s.folders ++ [⟨s.nextFolderId, "Home", userId, none⟩],
    nextFolderId := s.nextFolderId + 1 }

/-- Embeds `createFolder(name, userId, parentId)`: a bare
`prisma.folder.create` that inserts the row unconditionally (the source
performs no sibling-name or parent check in this function). -/
def createFolder (s : Store) (name : String) (userId : Nat)
    (parentId : Option Nat) : Store :=
  { s with
    folders := s.folders ++ [⟨s.nextFolderId, name, userId, parentId⟩],
    nextFolderId := s.nextFolderId + 1 }

/-- Embeds `checkFoldernameExist(name, parentId)`:
`prisma.folder.findFirst({ where: { name, parentId } }) !== null`. -/
def checkFoldernameExist (s : Store) (name : String)
    (parentId : Option Nat) : Bool :=
  (s.folders.find? (fun f => f.name == name && f.parentId == parentId)).isSome

/-- JS `newParentId || null`: `undefined`, `null` and the falsy id `0` all
collapse to null. -/
def orNull (v : Option Nat) : Option Nat :=
  match v with
  | some p => if p == 0 then none else some p
  | none => none

/-- Embeds `updateFolder(folderId, newName, newParentId)`:
`prisma.folder.update({ where: { id }, data: { name, parentId: newParentId || null } })`.
Returns the updated row and the new store; `none` models the P2025 error
thrown when no row has the id.  No validation of `newParentId` happens here. -/
def updateFolder (s : Store) (folderId : Nat) (newName : String)
    (newParentId : Option Nat) : Option (Folder × Store) :=
  match s.folders.find? (fun f => f.id == folderId) with
  | none => none
  | some f =>
      some ({ f with name := newName, parentId := orNull newParentId },
        { s with
          folders := s.folders.map (fun g =>
            if g.id == folderId then
              { g with name := newName, parentId := orNull newParentId }
            else g) })

/-- Embeds `findShareLink(shareLinkId)`: a bare `prisma.shareLink.findUnique`;
returns the row or `none`, with no look at the expiry. -/
def findShareLink (s : Store) (shareLinkId : Nat) : Option ShareLink :=
  s.shareLinks.find? (fun l => l.id == shareLinkId)

/-- Embeds `createShareLink(folderId, expiresAt)`: a bare
`prisma.shareLink.create` that inserts the row unconditionally and returns
it; the source checks neither that the folder exists nor that `expiresAt`
lies in the future. -/
def createShareLink (s : Store) (folderId : Nat) (expiresAt : Int) :
    ShareLink × Store :=
  (⟨s.nextLinkId, folderId, expiresAt⟩,
    { s with
      shareLinks := s.shareLinks ++ [⟨s.nextLinkId, folderId, expiresAt⟩],
      nextLinkId := s.nextLinkId + 1 })

/-- The three outcomes of resolving a share link. -/
inductive ShareResolution where
  | found (link : ShareLink)
  | expired
  | notFound
deriving DecidableEq, Repr

/-- Modelled from the spec: the share-link resolution operation
(`resolveShareLink(shareLinkId) -> ShareLink | Expired | NotFound`).  The
comparison of `now` with `expiresAt` is performed by request-handler code of
the repository that is not part of the storage layer; only the lookup
(`findShareLink`) is.  Per the spec, the link is returned only for
`now < expiresAt`, an existing-but-expired link resolves to `Expired`, and an
unknown id resolves to `NotFound`. -/
def resolveShareLink (s : Store) (now : Int) (shareLinkId : Nat) :
    ShareResolution :=
  match findShareLink s shareLinkId with
  | none => ShareResolution.notFound
  | some link =>
      if now < link.expiresAt then ShareResolution.found link
      else ShareResolution.expired

/-- Embeds `prisma.folder.findUnique({ where: { id } })`, the row lookup shared by
`findFolder` and the parent chain. -/
def findFolderRow (s : Store) (folderId : Nat) : Option Folder :=
  s.folders.find? (fun f => f.id == folderId)

/-- The `parentId` of the row with the given id, if that row exists. -/
def parentIdOf (s : Store) (id : Nat) : Option Nat :=
  (findFolderRow s id).bind (fun f => f.parentId)

/-- The ancestor ids loaded by `k` nested `include: { parent: ... }` levels
starting from a `parentId` value: each level loads the row named by the
current id and exposes its `parentId` to the next level. -/
def loadAncestors (s : Store) : Nat → Option Nat → List Nat
  | 0, _ => []
  | _ + 1, none => []
  | k + 1, some p => p :: loadAncestors s k (parentIdOf s p)

/-- Embeds `findFolder(folderId)`: the row itself, its direct subfolders, its
files, and the ancestor chain produced by the source's four nested
`include: { parent: ... }` levels — hence `loadAncestors s 4`. -/
def findFolder (s : Store) (folderId : Nat) :
    Option (Folder × List Folder × List File × List Nat) :=
  (findFolderRow s folderId).map (fun f =>
    (f,
      s.folders.filter (fun g => g.parentId == some folderId),
      s.files.filter (fun fl => fl.folderId == folderId),
      loadAncestors s 4 f.parentId))

/-- The full ancestor chain from a `parentId` value, fuel-bounded: the chain
stops at a root (`none`) or at an id with no row; `none` means the fuel ran
out before the chain ended. -/
def ancestorChain (s : Store) : Nat → Option Nat → Option (List Nat)
  | _, none => some []
  | 0, some _ => none
  | fuel + 1, some p => (ancestorChain s fuel (parentIdOf s p)).map (fun c => p :: c)

/-- The `for (const subfolder of subfolders)` loop of `findChildren`: pushes
each subfolder id and then the ids its recursive call collected.  `rec` is
the recursive call at one more call-stack level. -/
def findChildrenList (rec : Nat → Option (List Nat)) :
    List Nat → Option (List Nat)
  | [] => some []
  | c :: cs => do
      let ds ← rec c
      let rest ← findChildrenList rec cs
      pure (c :: ds ++ rest)

/-- Embeds the inner `findChildren(parentId)` of `findDescendantFolders`:
`prisma.folder.findMany({ where: { parentId } })`, then the loop.  Each
invocation consumes one unit of fuel — one call-stack frame of the JS
recursion; `none` means the allowance was exceeded. -/
def findChildrenF (s : Store) : Nat → Nat → Option (List Nat)
  | 0, _ => none
  | fuel + 1, parentId =>
      findChildrenList (fun c => findChildrenF s fuel c)
        ((s.folders.filter (fun f => f.parentId == some parentId)).map
          (fun f => f.id))

/-- Embeds `findDescendantFolders(folderId)`: runs `findChildren` from the
given folder and returns the collected descendant ids (preorder). -/
def findDescendantFolders (s : Store) (fuel : Nat) (folderId : Nat) :
    Option (List Nat) :=
  findChildrenF s fuel folderId

/-- Embeds `findParentFolders(userId, folderId)`: collects the descendants,
pushes `folderId` itself, and returns
`prisma.folder.findMany({ where: { userId, id: { notIn: descendants } } })`. -/
def findParentFolders (s : Store) (fuel : Nat) (userId folderId : Nat) :
    Option (List Folder) :=
  (findDescendantFolders s fuel folderId).map (fun ds =>
    let descendants := ds ++ [folderId]
    s.folders.filter (fun f =>
      f.userId == userId && !(descendants.contains f.id)))

/-- A deletion event, used to record the order in which `deleteFolder`
removes things: the `deleteMany` on files of a folder, the `deleteMany` on
share links of a folder, and the `delete` of a folder record. -/
inductive DelEv where
  | files (folderId : Nat)
  | links (folderId : Nat)
  | folder (folderId : Nat)
deriving DecidableEq, Repr

/-- Embeds `prisma.file.deleteMany({ where: { folderId } })`. -/
def deleteFilesOf (s : Store) (folderId : Nat) : Store :=
  { s with files := s.files.filter (fun f => !(f.folderId == folderId)) }

/-- Embeds `prisma.shareLink.deleteMany({ where: { folderId } })`. -/
def deleteLinksOf (s : Store) (folderId : Nat) : Store :=
  { s with shareLinks := s.shareLinks.filter (fun l => !(l.folderId == folderId)) }

/-- Embeds `prisma.folder.delete({ where: { id } })`: removes the row, or fails
(P2025) when no row has the id. -/
def deleteFolderRecord (s : Store) (folderId : Nat) : Option Store :=
  if s.folders.any (fun f => f.id == folderId) then
    some { s with folders := s.folders.filter (fun f => !(f.id == folderId)) }
  else none

/-- The `for (const subfolder of subfolders)` loop of `deleteFolder`:
deletes each subfolder's subtree in order, threading the store and
concatenating the event traces.  `rec` is the recursive call at one more
call-stack level. -/
def deleteList (rec : Store → Nat → Option (Store × List DelEv)) :
    Store → List Nat → Option (Store × List DelEv)
  | s, [] => some (s, [])
  | s, c :: cs => do
      let r1 ← rec s c
      let r2 ← deleteList rec r1.1 cs
      pure (r2.1, r1.2 ++ r2.2)

/-- Embeds `deleteFolder(folderId)`: delete the folder's files, recursively
delete each direct subfolder, delete the folder's share links, delete the
folder record.  Each invocation consumes one unit of fuel — one call-stack
frame of the JS recursion.  `none` models either an exhausted call-stack
allowance or the P2025 error on a missing folder record. -/
def deleteFolderF : Nat → Store → Nat → Option (Store × List DelEv)
  | 0, _, _ => none
  | fuel + 1, s, folderId =>
      let s1 := deleteFilesOf s folderId
      let subs := (s1.folders.filter (fun f => f.parentId == some folderId)).map
        (fun f => f.id)
      match deleteList (fun s' c => deleteFolderF fuel s' c) s1 subs with
      | none => none
      | some (s2, tr) =>
          let s3 := deleteLinksOf s2 folderId
          match deleteFolderRecord s3 folderId with
          | none => none
          | some s4 =>
              some (s4, DelEv.files folderId :: tr ++
                [DelEv.links folderId, DelEv.folder folderId])

/-- The child relation read off the folder table: `childOf s p c` holds when
some row has id `c` and `parentId = some p`. -/
def childOf (s : Store) (p c : Nat) : Prop :=
  ∃ f, f ∈ s.folders ∧ f.id = c ∧ f.parentId = some p

/-- Membership of id `x` in the subtree rooted at id `a`: `x` is `a` itself
or transitively reachable from `a` via the child relation. -/
def InSub (s : Store) (a x : Nat) : Prop :=
  x = a ∨ Relation.TransGen (childOf s) a x

/-- `rank` is a topological rank for the folder table: every child row ranks
strictly above the id its `parentId` names. -/
def RankOk (s : Store) (rank : Nat → Nat) : Prop :=
  ∀ f ∈ s.folders, ∀ p, f.parentId = some p → rank p < rank f.id

/-- The acyclicity invariant of the folder tree, stated as the existence of a
topological rank: following `parentId` must always descend in rank, so no
cycle and no self-parenting is possible. -/
def Acyclic (s : Store) : Prop := ∃ rank, RankOk s rank

/-- Folder ids are pairwise distinct (the primary-key invariant). -/
def UniqueIds (s : Store) : Prop := (ids s).Nodup

/-- Every non-null `parentId` names an existing folder row (the
foreign-key invariant). -/
def ParentsPresent (s : Store) : Prop :=
  ∀ f ∈ s.folders, ∀ p, f.parentId = some p → p ∈ ids s

/-- Executable check for `RankOk`, used to discharge the invariant on
concrete stores. -/
def rankOkB (s : Store) (rank : Nat → Nat) : Bool :=
  s.folders.all (fun f =>
    match f.parentId with
    | some p => decide (rank p < rank f.id)
    | none => true)

/-- Executable check for `ParentsPresent`. -/
def parentsPresentB (s : Store) : Bool :=
  s.folders.all (fun f =>
    match f.parentId with
    | some p => (ids s).contains p
    | none => true)

/-- The number of folder rows ranking strictly above id `p`: the measure that
shrinks along the child relation and bounds the recursion depth. -/
def over (s : Store) (rank : Nat → Nat) (p : Nat) : Nat :=
  (s.folders.filter (fun f => decide (rank p < rank f.id))).length

/-- The per-node deletion order of `deleteFolder`, read off an event trace:
every subtree node `n` contributes `files n`, then a middle segment, then
`links n` immediately followed by `folder n`; the record deletion of every
child of `n` lies in the middle segment — files first, then the subfolders
recursively (children's records before their parent's), then share links,
then the folder record. -/
def TraceOk (s : Store) (sub : List Nat) (tr : List DelEv) : Prop :=
  ∀ n ∈ sub, ∃ pre mid post,
    tr = pre ++ DelEv.files n :: (mid ++ DelEv.links n :: DelEv.folder n :: post) ∧
    ∀ row ∈ s.folders, row.parentId = some n → DelEv.folder row.id ∈ mid

/-- A user-1 store with Home(1) ← A(2) ← B(3): B is a descendant of A. -/
def storeHAB : Store :=
  ⟨[⟨1, "Home", 1, none⟩, ⟨2, "A", 1, some 1⟩, ⟨3, "B", 1, some 2⟩], [], [], 4, 1⟩

/-- A linear chain of `n` folders 1 ← 2 ← ⋯ ← n (each folder's parent is its
predecessor), owned by user 1. -/
def chainStore (n : Nat) : Store :=
  ⟨(List.range n).map (fun i =>
      ⟨i + 1, "f", 1, if i == 0 then none else some i⟩),
    [], [], n + 1, 1⟩

/-- An empty database. -/
def emptyStore : Store := ⟨[], [], [], 1, 1⟩

/-- A user-1 store Home(1) ← Docs(2) ← Reports(3) with a file in Docs and a
share link targeting Reports. -/
def storeDel : Store :=
  ⟨[⟨1, "Home", 1, none⟩, ⟨2, "Docs", 1, some 1⟩, ⟨3, "Reports", 1, some 2⟩],
    [⟨1, "a.txt", "up/a", 10, 2⟩], [⟨1, 3, 100⟩], 4, 2⟩

/-- The number of folder rows ranking at or below id `p`: the measure that
shrinks along the parent relation and bounds the ancestor-chain length. -/
def under (s : Store) (rank : Nat → Nat) (p : Nat) : Nat :=
  (s.folders.filter (fun f => decide (rank f.id ≤ rank p))).length

/-- A store whose only folder is user 1's Home(1). -/
def storeHome : Store := ⟨[⟨1, "Home", 1, none⟩], [], [], 2, 1⟩

/-- Share-link ids already in the store lie below the auto-increment counter
(the primary-key invariant of the ShareLink table). -/
def LinkIdsFresh (s : Store) : Prop := ∀ lk ∈ s.shareLinks, lk.id < s.nextLinkId

theorem rankOkB_sound (s : Store) (rank : Nat → Nat) (h : rankOkB s rank = true) :
    RankOk s rank := by
  intro f hf p hp
  have hx := List.all_eq_true.mp h f hf
  rw [hp] at hx
  simpa using hx

theorem parentsPresentB_sound (s : Store) (h : parentsPresentB s = true) :
    ParentsPresent s := by
  intro f hf p hp
  have hx := List.all_eq_true.mp h f hf
  rw [hp] at hx
  simpa using hx

theorem rank_lt_of_transGen {s : Store} {rank : Nat → Nat} (h : RankOk s rank)
    {a b : Nat} (t : Relation.TransGen (childOf s) a b) : rank a < rank b := by
  induction t with
  | single e =>
      obtain ⟨f, hf, rfl, hp⟩ := e
      exact h f hf _ hp
  | tail _ e ih =>
      obtain ⟨f, hf, rfl, hp⟩ := e
      exact lt_trans ih (h f hf _ hp)

theorem not_transGen_self {s : Store} {rank : Nat → Nat} (h : RankOk s rank)
    (a : Nat) : ¬ Relation.TransGen (childOf s) a a := by
  intro t
  exact lt_irrefl _ (rank_lt_of_transGen h t)

theorem filter_sublist_filter_of_imp {α : Type} :
    ∀ (l : List α) {p q : α → Bool}, (∀ x ∈ l, q x = true → p x = true) →
      l.filter q <+ l.filter p
  | [], _, _, _ => List.Sublist.refl _
  | a :: t, p, q, h => by
      have ht := filter_sublist_filter_of_imp t
        (fun x hx => h x (List.mem_cons_of_mem _ hx))
      by_cases hq : q a = true
      · have hp := h a (List.mem_cons_self _ _) hq
        simpa [List.filter_cons, hq, hp] using List.Sublist.cons₂ a ht
      · simp only [List.filter_cons, Bool.not_eq_true] at hq ⊢
        rw [hq]
        by_cases hp : p a = true
        · simpa [hp] using ht.cons _
        · simp only [Bool.not_eq_true] at hp
          rw [hp]
          exact ht

theorem length_filter_lt_of_witness {α : Type} {l : List α} {p q : α → Bool}
    (himp : ∀ x ∈ l, q x = true → p x = true) {w : α} (hw : w ∈ l)
    (hp : p w = true) (hq : q w = false) :
    (l.filter q).length < (l.filter p).length := by
  have hsub := filter_sublist_filter_of_imp l himp
  rcases Nat.lt_or_ge (l.filter q).length (l.filter p).length with hlt | hge
  · exact hlt
  · exfalso
    have heq := hsub.eq_of_length_le hge
    have hwq : w ∈ l.filter q := by
      rw [heq]
      exact List.mem_filter.mpr ⟨hw, hp⟩
    have := (List.mem_filter.mp hwq).2
    rw [hq] at this
    exact Bool.false_ne_true this

theorem over_le (s : Store) (rank : Nat → Nat) (p : Nat) :
    over s rank p ≤ s.folders.length :=
  List.length_filter_le _ _

theorem over_lt_of_child {s : Store} {rank : Nat → Nat} (hr : RankOk s rank)
    {p c : Nat} (hc : childOf s p c) : over s rank c < over s rank p := by
  obtain ⟨f, hf, rfl, hpp⟩ := hc
  have hpc : rank p < rank f.id := hr f hf p hpp
  refine length_filter_lt_of_witness ?_ hf ?_ ?_
  · intro x _ hqx
    simp only [decide_eq_true_eq] at hqx ⊢
    exact lt_trans hpc hqx
  · simpa using hpc
  · simp

theorem over_mono {s s₂ : Store} (h : s₂.folders <+ s.folders)
    (rank : Nat → Nat) (p : Nat) : over s₂ rank p ≤ over s rank p :=
  (h.filter _).length_le

theorem childOf_mono {s s₂ : Store} (h : ∀ f ∈ s₂.folders, f ∈ s.folders)
    {p c : Nat} (hc : childOf s₂ p c) : childOf s p c := by
  obtain ⟨f, hf, rfl, hp⟩ := hc
  exact ⟨f, h f hf, rfl, hp⟩

theorem inSub_mono {s s₂ : Store} (h : ∀ f ∈ s₂.folders, f ∈ s.folders)
    {a x : Nat} (hx : InSub s₂ a x) : InSub s a x := by
  rcases hx with rfl | t
  · exact Or.inl rfl
  · exact Or.inr (Relation.TransGen.mono (fun p c hc => childOf_mono h hc) t)

theorem rankOk_of_sublist {s s₂ : Store} (h : s₂.folders <+ s.folders)
    {rank : Nat → Nat} (hr : RankOk s rank) : RankOk s₂ rank :=
  fun f hf p hp => hr f (h.mem hf) p hp

theorem uniqueIds_of_sublist {s s₂ : Store} (h : s₂.folders <+ s.folders)
    (hu : UniqueIds s) : UniqueIds s₂ := by
  have hm : ids s₂ <+ ids s := by
    simpa [ids] using h.map (fun f => f.id)
  exact List.Nodup.sublist hm hu

theorem findChildrenList_nil (rec : Nat → Option (List Nat)) :
    findChildrenList rec [] = some [] := rfl

theorem findChildrenList_cons_eq_some {rec : Nat → Option (List Nat)}
    {c : Nat} {cs : List Nat} {out : List Nat} :
    findChildrenList rec (c :: cs) = some out ↔
      ∃ ds rest, rec c = some ds ∧ findChildrenList rec cs = some rest ∧
        out = c :: ds ++ rest := by
  cases hc : rec c with
  | none => simp [findChildrenList, hc]
  | some ds0 =>
      cases hrest : findChildrenList rec cs with
      | none => simp [findChildrenList, hc, hrest]
      | some rest0 => simp [findChildrenList, hc, hrest, eq_comm]

theorem findChildrenList_congr {rec₁ rec₂ : Nat → Option (List Nat)} :
    ∀ {l : List Nat}, (∀ c ∈ l, rec₁ c = rec₂ c) →
      findChildrenList rec₁ l = findChildrenList rec₂ l
  | [], _ => rfl
  | c :: cs, h => by
      simp only [findChildrenList]
      rw [h c (List.mem_cons_self _ _),
        findChildrenList_congr (fun x hx => h x (List.mem_cons_of_mem _ hx))]

theorem findChildrenList_isSome {rec : Nat → Option (List Nat)} :
    ∀ {l : List Nat}, (∀ c ∈ l, (rec c).isSome) →
      (findChildrenList rec l).isSome
  | [], _ => rfl
  | c :: cs, h => by
      obtain ⟨ds, hds⟩ := Option.isSome_iff_exists.mp (h c (List.mem_cons_self _ _))
      obtain ⟨rest, hrest⟩ := Option.isSome_iff_exists.mp
        (findChildrenList_isSome (fun x hx => h x (List.mem_cons_of_mem _ hx)))
      simp [findChildrenList, hds, hrest]

theorem findChildrenList_spec {rec : Nat → Option (List Nat)} :
    ∀ {l out : List Nat}, findChildrenList rec l = some out →
      (∀ c ∈ l, ∃ ds, rec c = some ds ∧ c ∈ out ∧ ∀ x ∈ ds, x ∈ out) ∧
      (∀ x ∈ out, ∃ c ∈ l, ∃ ds, rec c = some ds ∧ (x = c ∨ x ∈ ds))
  | [], out, h => by
      have hout : out = [] := by simpa [findChildrenList_nil] using h.symm
      subst hout
      exact ⟨by simp, by simp⟩
  | c :: cs, out, h => by
      obtain ⟨ds, rest, hds, hrest, rfl⟩ := findChildrenList_cons_eq_some.mp h
      have ih := findChildrenList_spec hrest
      constructor
      · intro c' hc'
        rcases List.mem_cons.mp hc' with rfl | hmem
        · exact ⟨ds, hds, by simp, fun x hx => by simp [hx]⟩
        · obtain ⟨ds', h1, h2, h3⟩ := ih.1 c' hmem
          exact ⟨ds', h1, by simp [h2], fun x hx => by simp [h3 x hx]⟩
      · intro x hx
        rcases (by simpa using hx : x = c ∨ x ∈ ds ∨ x ∈ rest) with hxc | hxds | hxrest
        · exact ⟨c, by simp, ds, hds, Or.inl hxc⟩
        · exact ⟨c, by simp, ds, hds, Or.inr hxds⟩
        · obtain ⟨c', hc', ds', h1, h2⟩ := ih.2 x hxrest
          exact ⟨c', by simp [hc'], ds', h1, h2⟩

theorem mem_childIds {s : Store} {p c : Nat} :
    c ∈ (s.folders.filter (fun f => f.parentId == some p)).map (fun f => f.id) ↔
      childOf s p c := by
  simp only [List.mem_map, List.mem_filter, beq_iff_eq, childOf]
  constructor
  · rintro ⟨f, ⟨hf, hp⟩, rfl⟩
    exact ⟨f, hf, rfl, hp⟩
  · rintro ⟨f, hf, rfl, hp⟩
    exact ⟨f, ⟨hf, hp⟩, rfl⟩

theorem findChildrenF_isSome {s : Store} {rank : Nat → Nat} (hr : RankOk s rank) :
    ∀ fuel p, over s rank p < fuel → (findChildrenF s fuel p).isSome := by
  intro fuel
  induction fuel with
  | zero => intro p h; exact absurd h (Nat.not_lt_zero _)
  | succ fuel ih =>
      intro p h
      simp only [findChildrenF]
      apply findChildrenList_isSome
      intro c hc
      exact ih c (Nat.lt_of_lt_of_le (over_lt_of_child hr (mem_childIds.mp hc))
        (Nat.lt_succ_iff.mp h))

theorem transGen_of_mem_findChildren {s : Store} :
    ∀ {fuel p l x}, findChildrenF s fuel p = some l → x ∈ l →
      Relation.TransGen (childOf s) p x := by
  intro fuel
  induction fuel with
  | zero => intro p l x h; simp [findChildrenF] at h
  | succ fuel ih =>
      intro p l x h hx
      simp only [findChildrenF] at h
      obtain ⟨c, hc, ds, hds, hor⟩ := (findChildrenList_spec h).2 x hx
      have hchild : childOf s p c := mem_childIds.mp hc
      rcases hor with rfl | hxds
      · exact Relation.TransGen.single hchild
      · exact Relation.TransGen.head hchild (ih hds hxds)

theorem findChildren_closed {s : Store} :
    ∀ {fuel p l}, findChildrenF s fuel p = some l →
      ∀ y, (y = p ∨ y ∈ l) → ∀ c, childOf s y c → c ∈ l := by
  intro fuel
  induction fuel with
  | zero => intro p l h; simp [findChildrenF] at h
  | succ fuel ih =>
      intro p l h y hy c hc
      simp only [findChildrenF] at h
      have spec := findChildrenList_spec h
      rcases hy with rfl | hyl
      · obtain ⟨ds, _, hcout, _⟩ := spec.1 c (mem_childIds.mpr hc)
        exact hcout
      · obtain ⟨c₀, hc₀, ds₀, hds₀, hor⟩ := spec.2 y hyl
        obtain ⟨ds₁, hds₁, _, hsub⟩ := spec.1 c₀ hc₀
        have hdseq : ds₁ = ds₀ := by
          rw [hds₀] at hds₁
          exact (Option.some.injEq _ _ ▸ hds₁).symm ▸ rfl
        exact hsub c (hdseq ▸ ih hds₀ y hor c hc)

theorem mem_findChildren_iff {s : Store} {fuel p l}
    (h : findChildrenF s fuel p = some l) :
    ∀ x, x ∈ l ↔ Relation.TransGen (childOf s) p x := by
  intro x
  constructor
  · exact transGen_of_mem_findChildren h
  · intro t
    induction t with
    | single e => exact findChildren_closed h p (Or.inl rfl) _ e
    | tail _ e ihm => exact findChildren_closed h _ (Or.inr ihm) _ e

theorem findChildren_stable {s s₂ : Store} {q : Folder → Bool}
    (hfold : s₂.folders = s.folders.filter q) :
    ∀ fuel {a}, (∀ row ∈ s.folders, InSub s a row.id → q row = true) →
      findChildrenF s₂ fuel a = findChildrenF s fuel a := by
  intro fuel
  induction fuel with
  | zero => intro a _; rfl
  | succ fuel ih =>
      intro a ha
      simp only [findChildrenF]
      have hsubs : s₂.folders.filter (fun f => f.parentId == some a) =
          s.folders.filter (fun f => f.parentId == some a) := by
        rw [hfold, List.filter_filter]
        apply List.filter_congr
        intro f hf
        by_cases hp : (f.parentId == some a) = true
        · have hq := ha f hf
            (Or.inr (Relation.TransGen.single ⟨f, hf, rfl, by simpa using hp⟩))
          simp [hp, hq]
        · simp only [Bool.not_eq_true] at hp
          simp [hp]
      rw [hsubs]
      apply findChildrenList_congr
      intro c hc
      have hchild : childOf s a c := mem_childIds.mp hc
      apply ih
      intro row hrow hrowin
      apply ha row hrow
      rcases hrowin with rfl | t
      · exact Or.inr (Relation.TransGen.single hchild)
      · exact Or.inr (Relation.TransGen.head hchild t)

theorem parent_unique {s : Store} (hu : UniqueIds s) {p q x : Nat}
    (hp : childOf s p x) (hq : childOf s q x) : p = q := by
  obtain ⟨f, hf, hfx, hfp⟩ := hp
  obtain ⟨g, hg, hgx, hgp⟩ := hq
  have hun : (s.folders.map (fun f => f.id)).Nodup := hu
  have hfg : f = g := List.inj_on_of_nodup_map hun hf hg (by rw [hfx, hgx])
  subst hfg
  rw [hfp] at hgp
  exact Option.some.inj hgp

theorem no_up_to_parent {s : Store} {rank : Nat → Nat} (hu : UniqueIds s)
    (hr : RankOk s rank) {p a b : Nat} (ha : childOf s p a) (hb : childOf s p b)
    (t : Relation.TransGen (childOf s) a b) : False := by
  cases t with
  | single e =>
      have hap : a = p := parent_unique hu e hb
      subst hap
      exact not_transGen_self hr a (Relation.TransGen.single ha)
  | tail t' e =>
      have hyp := parent_unique hu e hb
      subst hyp
      exact not_transGen_self hr a (t'.trans (Relation.TransGen.single ha))

theorem up_linear {s : Store} (hu : UniqueIds s) {a x : Nat}
    (hax : Relation.TransGen (childOf s) a x) :
    ∀ {b : Nat}, Relation.TransGen (childOf s) b x →
      a = b ∨ Relation.TransGen (childOf s) a b ∨
        Relation.TransGen (childOf s) b a := by
  induction hax with
  | single e =>
      intro b hbx
      cases hbx with
      | single e' => exact Or.inl (parent_unique hu e e')
      | tail hby e' =>
          have hay : a = _ := parent_unique hu e e'
          exact Or.inr (Or.inr (hay ▸ hby))
  | tail hay e ih =>
      intro b hbx
      cases hbx with
      | single e' =>
          have hby := parent_unique hu e' e
          exact Or.inr (Or.inl (hby ▸ hay))
      | tail hby' e'' =>
          have hyy := parent_unique hu e'' e
          exact ih (hyy ▸ hby')

theorem inSub_disjoint {s : Store} {rank : Nat → Nat} (hu : UniqueIds s)
    (hr : RankOk s rank) {p a b x : Nat} (ha : childOf s p a)
    (hb : childOf s p b) (hab : a ≠ b) (hxa : InSub s a x)
    (hxb : InSub s b x) : False := by
  rcases hxa with rfl | ta
  · rcases hxb with rfl | tb
    · exact hab rfl
    · exact no_up_to_parent hu hr hb ha tb
  · rcases hxb with rfl | tb
    · exact no_up_to_parent hu hr ha hb ta
    · rcases up_linear hu ta tb with heq | t1 | t2
      · exact hab heq
      · exact no_up_to_parent hu hr ha hb t1
      · exact no_up_to_parent hu hr hb ha t2

theorem findChildrenF_congr_folders {s t : Store} (h : s.folders = t.folders) :
    ∀ fuel a, findChildrenF s fuel a = findChildrenF t fuel a := by
  intro fuel
  induction fuel with
  | zero => intro a; rfl
  | succ fuel ih =>
      intro a
      simp only [findChildrenF]
      rw [h]
      exact findChildrenList_congr (fun c _ => ih c)

theorem deleteList_cons_of {rec : Store → Nat → Option (Store × List DelEv)}
    {s : Store} {c : Nat} {cs : List Nat} {s1 s2 : Store}
    {tr1 tr2 : List DelEv} (h1 : rec s c = some (s1, tr1))
    (h2 : deleteList rec s1 cs = some (s2, tr2)) :
    deleteList rec s (c :: cs) = some (s2, tr1 ++ tr2) := by
  simp [deleteList, h1, h2]

theorem deleteFolderRecord_eq_some {s : Store} {c : Nat} {f : Folder}
    (hf : f ∈ s.folders) (hfc : f.id = c) :
    deleteFolderRecord s c =
      some { s with folders := s.folders.filter (fun g => !(g.id == c)) } := by
  unfold deleteFolderRecord
  rw [if_pos]
  exact List.any_eq_true.mpr ⟨f, hf, by simp [hfc]⟩

theorem childOf_mem_ids {s : Store} {p c : Nat} (h : childOf s p c) : c ∈ ids s := by
  obtain ⟨f, hf, rfl, _⟩ := h
  exact List.mem_map.mpr ⟨f, hf, rfl⟩

theorem mem_ids_row {s : Store} {c : Nat} (h : c ∈ ids s) :
    ∃ f, f ∈ s.folders ∧ f.id = c := by
  obtain ⟨f, hf, rfl⟩ := List.mem_map.mp h
  exact ⟨f, hf, rfl⟩

theorem deleteList_spec_of_node {fuel : Nat}
    (hnode : ∀ (s : Store) (c : Nat) (rank : Nat → Nat), RankOk s rank →
      UniqueIds s → c ∈ ids s → over s rank c < fuel →
      ∃ ds s' tr, findChildrenF s fuel c = some ds ∧
        deleteFolderF fuel s c = some (s', tr) ∧
        s'.folders = s.folders.filter (fun row => !(decide (row.id ∈ c :: ds))) ∧
        s'.files = s.files.filter (fun fl => !(decide (fl.folderId ∈ c :: ds))) ∧
        s'.shareLinks =
          s.shareLinks.filter (fun lk => !(decide (lk.folderId ∈ c :: ds))) ∧
        s'.nextFolderId = s.nextFolderId ∧ s'.nextLinkId = s.nextLinkId ∧
        TraceOk s (c :: ds) tr) :
    ∀ (l : List Nat) (s : Store) (rank : Nat → Nat), RankOk s rank →
      UniqueIds s → (∀ a ∈ l, a ∈ ids s ∧ over s rank a < fuel) →
      l.Pairwise (fun a b => ∀ x, InSub s a x → InSub s b x → False) →
      ∃ out s' tr,
        findChildrenList (fun c => findChildrenF s fuel c) l = some out ∧
        deleteList (fun s2 c => deleteFolderF fuel s2 c) s l = some (s', tr) ∧
        s'.folders = s.folders.filter (fun row => !(decide (row.id ∈ out))) ∧
        s'.files = s.files.filter (fun fl => !(decide (fl.folderId ∈ out))) ∧
        s'.shareLinks =
          s.shareLinks.filter (fun lk => !(decide (lk.folderId ∈ out))) ∧
        s'.nextFolderId = s.nextFolderId ∧ s'.nextLinkId = s.nextLinkId ∧
        (∀ x ∈ out, ∃ a ∈ l, InSub s a x) ∧
        TraceOk s out tr := by
  intro l
  induction l with
  | nil =>
      intro s rank _ _ _ _
      refine ⟨[], s, [], rfl, rfl, ?_, ?_, ?_, rfl, rfl, ?_, ?_⟩
      · simp
      · simp
      · simp
      · intro x hx
        exact absurd hx (List.not_mem_nil x)
      · intro n hn
        exact absurd hn (List.not_mem_nil n)
  | cons a l' ih =>
      intro s rank hr hu helem hpair
      obtain ⟨haid, haover⟩ := helem a (List.mem_cons_self _ _)
      obtain ⟨ds, s1, tr1, hfc, hdel, hfolders, hfiles, hlinks, hnf, hnl, htr⟩ :=
        hnode s a rank hr hu haid haover
      obtain ⟨hhead, htail⟩ := List.pairwise_cons.mp hpair
      have hsub1 : s1.folders <+ s.folders := by
        rw [hfolders]
        exact List.filter_sublist _
      have hmem1 : ∀ f ∈ s1.folders, f ∈ s.folders := fun f hf => hsub1.subset hf
      have hr1 : RankOk s1 rank := rankOk_of_sublist hsub1 hr
      have hu1 : UniqueIds s1 := uniqueIds_of_sublist hsub1 hu
      have hsubA : ∀ x, x ∈ a :: ds ↔ InSub s a x := by
        intro x
        simp only [List.mem_cons, InSub]
        constructor
        · rintro (rfl | hx)
          · exact Or.inl rfl
          · exact Or.inr ((mem_findChildren_iff hfc x).mp hx)
        · rintro (rfl | hx)
          · exact Or.inl rfl
          · exact Or.inr ((mem_findChildren_iff hfc x).mpr hx)
      have helem' : ∀ b ∈ l', b ∈ ids s1 ∧ over s1 rank b < fuel := by
        intro b hb
        obtain ⟨hbid, hbover⟩ := helem b (List.mem_cons_of_mem _ hb)
        obtain ⟨f, hf, hfid⟩ := mem_ids_row hbid
        have hnot : ¬(f.id ∈ a :: ds) := by
          intro hmem
          have h1 : InSub s a b := by
            rw [← hfid]
            exact (hsubA f.id).mp hmem
          exact hhead b hb b h1 (Or.inl rfl)
        constructor
        · apply List.mem_map.mpr
          refine ⟨f, ?_, hfid⟩
          rw [hfolders]
          exact List.mem_filter.mpr ⟨hf, by simp [hnot]⟩
        · exact Nat.lt_of_le_of_lt (over_mono hsub1 rank b) hbover
      have hpair' : l'.Pairwise (fun u v => ∀ x, InSub s1 u x → InSub s1 v x → False) := by
        refine htail.imp ?_
        intro u v huv x hxu hxv
        exact huv x (inSub_mono hmem1 hxu) (inSub_mono hmem1 hxv)
      obtain ⟨out', s2, tr2, hfcl', hdll', hfolders', hfiles', hlinks', hnf', hnl',
        hins', htr'⟩ := ih s1 rank hr1 hu1 helem' hpair'
      have hstable : ∀ b ∈ l', findChildrenF s1 fuel b = findChildrenF s fuel b := by
        intro b hb
        apply findChildren_stable hfolders fuel
        intro row hrow hrowin
        have hnot : ¬(row.id ∈ a :: ds) := fun hmem =>
          hhead b hb row.id ((hsubA row.id).mp hmem) hrowin
        simp [hnot]
      have hfcl : findChildrenList (fun c => findChildrenF s fuel c) (a :: l') =
          some (a :: ds ++ out') := by
        apply findChildrenList_cons_eq_some.mpr
        refine ⟨ds, out', hfc, ?_, rfl⟩
        calc findChildrenList (fun c => findChildrenF s fuel c) l'
            = findChildrenList (fun c => findChildrenF s1 fuel c) l' :=
              findChildrenList_congr (fun b hb => (hstable b hb).symm)
          _ = some out' := hfcl'
      have hdll : deleteList (fun s2 c => deleteFolderF fuel s2 c) s (a :: l') =
          some (s2, tr1 ++ tr2) := deleteList_cons_of hdel hdll'
      refine ⟨a :: ds ++ out', s2, tr1 ++ tr2, hfcl, hdll, ?_, ?_, ?_, ?_, ?_, ?_, ?_⟩
      · rw [hfolders', hfolders, List.filter_filter]
        apply List.filter_congr
        intro row _
        by_cases h0 : row.id = a <;> by_cases h1 : row.id ∈ ds <;>
          by_cases h2 : row.id ∈ out' <;> simp [h0, h1, h2]
      · rw [hfiles', hfiles, List.filter_filter]
        apply List.filter_congr
        intro fl _
        by_cases h0 : fl.folderId = a <;> by_cases h1 : fl.folderId ∈ ds <;>
          by_cases h2 : fl.folderId ∈ out' <;> simp [h0, h1, h2]
      · rw [hlinks', hlinks, List.filter_filter]
        apply List.filter_congr
        intro lk _
        by_cases h0 : lk.folderId = a <;> by_cases h1 : lk.folderId ∈ ds <;>
          by_cases h2 : lk.folderId ∈ out' <;> simp [h0, h1, h2]
      · rw [hnf', hnf]
      · rw [hnl', hnl]
      · intro x hx
        rcases List.mem_cons.mp hx with rfl | hx'
        · exact ⟨x, List.mem_cons_self _ _, Or.inl rfl⟩
        · rcases List.mem_append.mp hx' with hxds | hxout
          · exact ⟨a, List.mem_cons_self _ _,
              (hsubA x).mp (List.mem_cons_of_mem _ hxds)⟩
          · obtain ⟨b, hb, hbin⟩ := hins' x hxout
            exact ⟨b, List.mem_cons_of_mem _ hb, inSub_mono hmem1 hbin⟩
      · intro n hn
        have hsplit : n ∈ a :: ds ∨ n ∈ out' := by
          rcases List.mem_cons.mp hn with rfl | h
          · exact Or.inl (List.mem_cons_self _ _)
          · rcases List.mem_append.mp h with h | h
            · exact Or.inl (List.mem_cons_of_mem _ h)
            · exact Or.inr h
        rcases hsplit with hnA | hnO
        · obtain ⟨pre, mid, post, heq, hchild⟩ := htr n hnA
          refine ⟨pre, mid, post ++ tr2, ?_, hchild⟩
          rw [heq]
          simp [List.append_assoc]
        · obtain ⟨pre, mid, post, heq, hchild⟩ := htr' n hnO
          refine ⟨tr1 ++ pre, mid, post, ?_, ?_⟩
          · rw [heq]
            simp [List.append_assoc]
          · intro row hrow hparent
            apply hchild row ?_ hparent
            rw [hfolders]
            apply List.mem_filter.mpr
            refine ⟨hrow, ?_⟩
            have hnot : ¬(row.id ∈ a :: ds) := by
              intro hmem
              have h1 : InSub s a row.id := (hsubA row.id).mp hmem
              obtain ⟨b, hb, hbn⟩ := hins' n hnO
              have hbn' : InSub s b n := inSub_mono hmem1 hbn
              have hchildn : childOf s n row.id := ⟨row, hrow, rfl, hparent⟩
              have h2 : InSub s b row.id := by
                rcases hbn' with rfl | t
                · exact Or.inr (Relation.TransGen.single hchildn)
                · exact Or.inr (t.tail hchildn)
              exact hhead b hb row.id h1 h2
            simp [hnot]

theorem deleteFolderF_spec :
    ∀ (fuel : Nat) (s : Store) (c : Nat) (rank : Nat → Nat),
    RankOk s rank → UniqueIds s → c ∈ ids s → over s rank c < fuel →
    ∃ ds s' tr, findChildrenF s fuel c = some ds ∧
      deleteFolderF fuel s c = some (s', tr) ∧
      s'.folders = s.folders.filter (fun row => !(decide (row.id ∈ c :: ds))) ∧
      s'.files = s.files.filter (fun fl => !(decide (fl.folderId ∈ c :: ds))) ∧
      s'.shareLinks =
        s.shareLinks.filter (fun lk => !(decide (lk.folderId ∈ c :: ds))) ∧
      s'.nextFolderId = s.nextFolderId ∧ s'.nextLinkId = s.nextLinkId ∧
      TraceOk s (c :: ds) tr := by
  intro fuel
  induction fuel with
  | zero =>
      intro s c rank _ _ _ h
      exact absurd h (Nat.not_lt_zero _)
  | succ fuel ih =>
      intro s c rank hr hu hc hover
      have hfoldeq : (deleteFilesOf s c).folders = s.folders := rfl
      have hover' : over s rank c ≤ fuel := Nat.lt_succ_iff.mp hover
      -- the direct children of c, as computed by the source from the store
      -- in which the files of c are already gone (folders are untouched)
      have hrS1 : RankOk (deleteFilesOf s c) rank := hr
      have huS1 : UniqueIds (deleteFilesOf s c) := hu
      have helemS : ∀ b ∈ (s.folders.filter
          (fun f => f.parentId == some c)).map (fun f => f.id),
          b ∈ ids (deleteFilesOf s c) ∧ over (deleteFilesOf s c) rank b < fuel := by
        intro b hb
        have hchild : childOf s c b := mem_childIds.mp hb
        refine ⟨childOf_mem_ids hchild, ?_⟩
        exact Nat.lt_of_lt_of_le (over_lt_of_child hr hchild) hover'
      have hnodup : ((s.folders.filter
          (fun f => f.parentId == some c)).map (fun f => f.id)).Nodup := by
        have hsub : (s.folders.filter (fun f => f.parentId == some c)).map
            (fun f => f.id) <+ s.folders.map (fun f => f.id) :=
          List.Sublist.map (fun (f : Folder) => f.id) (List.filter_sublist _)
        exact List.Nodup.sublist hsub hu
      have hpairS : ((s.folders.filter
          (fun f => f.parentId == some c)).map (fun f => f.id)).Pairwise
          (fun u v => ∀ x, InSub (deleteFilesOf s c) u x →
            InSub (deleteFilesOf s c) v x → False) := by
        refine List.Pairwise.imp_of_mem ?_ hnodup
        intro u v humem hvmem hne x hxu hxv
        exact inSub_disjoint hu hr (mem_childIds.mp humem) (mem_childIds.mp hvmem)
          hne hxu hxv
      obtain ⟨out, s2, tr, hfcl1, hdll, hfolders2, hfiles2, hlinks2, hnf2, hnl2,
        hins, htr2⟩ := deleteList_spec_of_node ih
          ((s.folders.filter (fun f => f.parentId == some c)).map (fun f => f.id))
          (deleteFilesOf s c) rank hrS1 huS1 helemS hpairS
      -- the same run of findChildren over the original store
      have hfc : findChildrenF s (fuel + 1) c = some out := by
        simp only [findChildrenF]
        calc findChildrenList (fun c' => findChildrenF s fuel c')
              ((s.folders.filter (fun f => f.parentId == some c)).map (fun f => f.id))
            = findChildrenList (fun c' => findChildrenF (deleteFilesOf s c) fuel c')
              ((s.folders.filter (fun f => f.parentId == some c)).map (fun f => f.id)) :=
              findChildrenList_congr
                (fun b _ => findChildrenF_congr_folders hfoldeq.symm fuel b)
          _ = some out := hfcl1
      -- c itself never occurs among its descendants
      have hcout : ¬(c ∈ out) := by
        intro hcmem
        obtain ⟨b, hbsubs, hbinsub⟩ := hins c hcmem
        have hchild : childOf s c b := mem_childIds.mp hbsubs
        have hbc : InSub s b c := hbinsub
        rcases hbc with heq | t
        · rw [← heq] at hchild
          exact not_transGen_self hr c (Relation.TransGen.single hchild)
        · exact not_transGen_self hr c (Relation.TransGen.head hchild t)
      -- the record of c is still present when it is finally deleted
      obtain ⟨rowc, hrowc, hrowcid⟩ := mem_ids_row hc
      have hrowc2 : rowc ∈ (deleteLinksOf s2 c).folders := by
        have : rowc ∈ s2.folders := by
          rw [hfolders2]
          refine List.mem_filter.mpr ⟨hrowc, ?_⟩
          rw [hrowcid]
          simp [hcout]
        exact this
      have hrec : deleteFolderRecord (deleteLinksOf s2 c) c =
          some { deleteLinksOf s2 c with
            folders := (deleteLinksOf s2 c).folders.filter (fun g => !(g.id == c)) } :=
        deleteFolderRecord_eq_some hrowc2 hrowcid
      refine ⟨out,
        { deleteLinksOf s2 c with
          folders := (deleteLinksOf s2 c).folders.filter (fun g => !(g.id == c)) },
        DelEv.files c :: tr ++ [DelEv.links c, DelEv.folder c],
        hfc, ?_, ?_, ?_, ?_, ?_, ?_, ?_⟩
      · -- the run of deleteFolder itself
        simp only [deleteFolderF]
        rw [hfoldeq, hdll]
        simp only [hrec]
      · -- folders of the result
        show s2.folders.filter (fun g => !(g.id == c)) = _
        rw [hfolders2]
        rw [hfoldeq, List.filter_filter]
        apply List.filter_congr
        intro row _
        by_cases h0 : row.id = c <;> by_cases h1 : row.id ∈ out <;> simp [h0, h1]
      · -- files of the result
        show s2.files = _
        rw [hfiles2]
        show (s.files.filter (fun f => !(f.folderId == c))).filter _ = _
        rw [List.filter_filter]
        apply List.filter_congr
        intro fl _
        by_cases h0 : fl.folderId = c <;> by_cases h1 : fl.folderId ∈ out <;>
          simp [h0, h1]
      · -- share links of the result
        show s2.shareLinks.filter (fun l => !(l.folderId == c)) = _
        rw [hlinks2]
        show (s.shareLinks.filter _).filter _ = _
        rw [List.filter_filter]
        apply List.filter_congr
        intro lk _
        by_cases h0 : lk.folderId = c <;> by_cases h1 : lk.folderId ∈ out <;>
          simp [h0, h1]
      · show s2.nextFolderId = s.nextFolderId
        exact hnf2
      · show s2.nextLinkId = s.nextLinkId
        exact hnl2
      · -- the deletion order
        intro n hn
        rcases List.mem_cons.mp hn with heq | hnout
        · rw [heq]
          refine ⟨[], tr, [], by simp, ?_⟩
          intro row hrow hparent
          have hrowsubs : row.id ∈ (s.folders.filter
              (fun f => f.parentId == some c)).map (fun f => f.id) :=
            mem_childIds.mpr ⟨row, hrow, rfl, hparent⟩
          obtain ⟨ds', _, hrowout, _⟩ :=
            (findChildrenList_spec hfcl1).1 row.id hrowsubs
          obtain ⟨pre, mid, post, heq, _⟩ := htr2 row.id hrowout
          rw [heq]
          simp
        · obtain ⟨pre, mid, post, heq, hchild⟩ := htr2 n hnout
          refine ⟨DelEv.files c :: pre, mid, post ++ [DelEv.links c, DelEv.folder c],
            ?_, ?_⟩
          · rw [heq]
            simp [List.append_assoc]
          · intro row hrow hparent
            exact hchild row hrow hparent

theorem parentIdOf_eq_some {s : Store} {p q : Nat} (h : parentIdOf s p = some q) :
    ∃ f, f ∈ s.folders ∧ f.id = p ∧ f.parentId = some q := by
  unfold parentIdOf findFolderRow at h
  cases hf : s.folders.find? (fun f => f.id == p) with
  | none => rw [hf] at h; simp at h
  | some f =>
      rw [hf] at h
      simp only [Option.some_bind] at h
      have hmem := List.mem_of_find?_eq_some hf
      have hid : (f.id == p) = true := (List.find?_eq_some.mp hf).1
      exact ⟨f, hmem, by simpa using hid, h⟩

theorem under_le (s : Store) (rank : Nat → Nat) (p : Nat) :
    under s rank p ≤ s.folders.length :=
  List.length_filter_le _ _

theorem under_lt_of_parent {s : Store} {rank : Nat → Nat} (hr : RankOk s rank)
    {f : Folder} (hf : f ∈ s.folders) {q : Nat} (hq : f.parentId = some q) :
    under s rank q < under s rank f.id := by
  have hlt : rank q < rank f.id := hr f hf q hq
  refine length_filter_lt_of_witness ?_ hf ?_ ?_
  · intro x _ h
    simp only [decide_eq_true_eq] at h ⊢
    omega
  · simp
  · simp only [decide_eq_false_iff_not]
    omega

theorem ancestorChain_isSome {s : Store} {rank : Nat → Nat} (hr : RankOk s rank) :
    ∀ fuel (start : Option Nat), (∀ p, start = some p → under s rank p < fuel) →
      (ancestorChain s fuel start).isSome := by
  intro fuel
  induction fuel with
  | zero =>
      intro start h
      cases start with
      | none => rfl
      | some p => exact absurd (h p rfl) (Nat.not_lt_zero _)
  | succ fuel ih =>
      intro start h
      cases start with
      | none => rfl
      | some p =>
          simp only [ancestorChain]
          have hrec : (ancestorChain s fuel (parentIdOf s p)).isSome := by
            apply ih
            intro q hq
            obtain ⟨f, hf, hfid, hfp⟩ := parentIdOf_eq_some hq
            have := under_lt_of_parent hr hf hfp
            rw [hfid] at this
            have hp := h p rfl
            omega
          obtain ⟨chain, hchain⟩ := Option.isSome_iff_exists.mp hrec
          simp [hchain]

theorem loadAncestors_eq_take {s : Store} :
    ∀ (k : Nat) {fuel : Nat} {start : Option Nat} {chain : List Nat},
      ancestorChain s fuel start = some chain →
      loadAncestors s k start = chain.take k := by
  intro k
  induction k with
  | zero => intro fuel start chain _; simp [loadAncestors]
  | succ k ih =>
      intro fuel start chain h
      cases start with
      | none =>
          have hchain : chain = [] := by
            cases fuel <;> simpa [ancestorChain] using h.symm
          subst hchain
          simp [loadAncestors]
      | some p =>
          cases fuel with
          | zero => simp [ancestorChain] at h
          | succ fuel =>
              simp only [ancestorChain] at h
              cases hrec : ancestorChain s fuel (parentIdOf s p) with
              | none => rw [hrec] at h; simp at h
              | some chain' =>
                  rw [hrec] at h
                  simp only [Option.map_some', Option.some.injEq] at h
                  subst h
                  simp only [loadAncestors, List.take_succ_cons]
                  rw [ih hrec]

theorem ancestorChain_ranks {s : Store} {rank : Nat → Nat} (hr : RankOk s rank) :
    ∀ {fuel : Nat} {start : Option Nat} {chain : List Nat},
      ancestorChain s fuel start = some chain →
      chain.Pairwise (fun a b => rank b < rank a) ∧
      (∀ b ∈ chain, ∀ p, start = some p → rank b ≤ rank p) := by
  intro fuel
  induction fuel with
  | zero =>
      intro start chain h
      cases start with
      | none =>
          have : chain = [] := by simpa [ancestorChain] using h.symm
          subst this
          exact ⟨List.Pairwise.nil, by simp⟩
      | some p => simp [ancestorChain] at h
  | succ fuel ih =>
      intro start chain h
      cases start with
      | none =>
          have : chain = [] := by simpa [ancestorChain] using h.symm
          subst this
          exact ⟨List.Pairwise.nil, by simp⟩
      | some p =>
          simp only [ancestorChain] at h
          cases hrec : ancestorChain s fuel (parentIdOf s p) with
          | none => rw [hrec] at h; simp at h
          | some chain' =>
              rw [hrec] at h
              simp only [Option.map_some', Option.some.injEq] at h
              subst h
              obtain ⟨hpair', hbound'⟩ := ih hrec
              have hstep : ∀ b ∈ chain', rank b < rank p := by
                intro b hb
                cases hpar : parentIdOf s p with
                | none =>
                    rw [hpar] at hrec
                    have : chain' = [] := by
                      cases fuel <;> simpa [ancestorChain] using hrec.symm
                    subst this
                    exact absurd hb (List.not_mem_nil b)
                | some q =>
                    obtain ⟨f, hf, hfid, hfp⟩ := parentIdOf_eq_some hpar
                    have h1 : rank q < rank f.id := hr f hf q hfp
                    have h2 := hbound' b hb q hpar
                    rw [hfid] at h1
                    omega
              constructor
              · exact List.pairwise_cons.mpr ⟨hstep, hpair'⟩
              · intro b hb p' hp'
                have hpp : p' = p := by
                  simpa using hp'.symm
                subst hpp
                rcases List.mem_cons.mp hb with rfl | hb'
                · exact Nat.le_refl _
                · exact Nat.le_of_lt (hstep b hb')

theorem ancestorChain_mem_ids {s : Store} (hpp : ParentsPresent s) :
    ∀ {fuel : Nat} {start : Option Nat} {chain : List Nat},
      ancestorChain s fuel start = some chain →
      (∀ p, start = some p → p ∈ ids s) → ∀ a ∈ chain, a ∈ ids s := by
  intro fuel
  induction fuel with
  | zero =>
      intro start chain h h0
      cases start with
      | none =>
          have : chain = [] := by simpa [ancestorChain] using h.symm
          subst this
          simp
      | some p => simp [ancestorChain] at h
  | succ fuel ih =>
      intro start chain h h0
      cases start with
      | none =>
          have : chain = [] := by simpa [ancestorChain] using h.symm
          subst this
          simp
      | some p =>
          simp only [ancestorChain] at h
          cases hrec : ancestorChain s fuel (parentIdOf s p) with
          | none => rw [hrec] at h; simp at h
          | some chain' =>
              rw [hrec] at h
              simp only [Option.map_some', Option.some.injEq] at h
              subst h
              intro a ha
              rcases List.mem_cons.mp ha with rfl | ha'
              · exact h0 a rfl
              · refine ih hrec ?_ a ha'
                intro q hq
                obtain ⟨f, hf, _, hfp⟩ := parentIdOf_eq_some hq
                exact hpp f hf q hfp

/-- C4: resolving a share link distinguishes three outcomes: the link itself
is returned exactly when the link exists and `now < expiresAt`; `Expired` is
returned exactly when the link exists and `now ≥ expiresAt`; `NotFound` is
returned exactly when no link with the id exists.  The three outcomes are
distinct constructors of `ShareResolution`, so the caller can tell them
apart. -/
theorem C4_resolveShareLink_trichotomy (s : Store) (now : Int) (shareLinkId : Nat) :
    (∀ link, resolveShareLink s now shareLinkId = ShareResolution.found link ↔
      findShareLink s shareLinkId = some link ∧ now < link.expiresAt) ∧
    (resolveShareLink s now shareLinkId = ShareResolution.expired ↔
      ∃ link, findShareLink s shareLinkId = some link ∧ link.expiresAt ≤ now) ∧
    (resolveShareLink s now shareLinkId = ShareResolution.notFound ↔
      findShareLink s shareLinkId = none) := by
  unfold resolveShareLink
  cases hf : findShareLink s shareLinkId with
  | none => simp
  | some link =>
      by_cases h : now < link.expiresAt
      · refine ⟨?_, ?_, ?_⟩
        · intro link'
          simp only [if_pos h, ShareResolution.found.injEq, Option.some.injEq]
          constructor
          · rintro rfl
            exact ⟨rfl, h⟩
          · rintro ⟨rfl, _⟩
            rfl
        · simp only [if_pos h]
          constructor
          · intro hc
            exact absurd hc (by simp)
          · rintro ⟨link', heq, hle⟩
            have hll : link' = link := (Option.some.inj heq).symm
            subst hll
            exact absurd hle (not_le_of_lt h)
        · simp [if_pos h]
      · refine ⟨?_, ?_, ?_⟩
        · intro link'
          simp only [if_neg h]
          constructor
          · intro hc
            exact absurd hc (by simp)
          · rintro ⟨heq, hlt⟩
            have hll : link' = link := (Option.some.inj heq).symm
            subst hll
            exact absurd hlt h
        · simp only [if_neg h]
          constructor
          · intro _
            exact ⟨link, rfl, le_of_not_lt h⟩
          · intro _
            trivial
        · simp [if_neg h]

/-- C9: the descendant walk and the cascading delete are call-stack
recursion, one frame per tree level — not an iterative worklist.  With a
stack allowance of 2 frames both fail on the 3-deep chain 1 ← 2 ← 3 and
succeed once the allowance reaches 3, so the maximum supported tree depth is
bounded by the call-stack limit, contrary to the no-depth-limit requirement;
termination itself does hold whenever the allowance exceeds the depth. -/
theorem C9_recursion_depth_bounded :
    findDescendantFolders (chainStore 3) 2 1 = none ∧
    findDescendantFolders (chainStore 3) 3 1 = some [2, 3] ∧
    deleteFolderF 2 (chainStore 3) 1 = none ∧
    (deleteFolderF 3 (chainStore 3) 1).isSome = true := by
  refine ⟨?_, ?_, ?_, ?_⟩ <;> decide

/-- C6 counterexample: with Home(1) already holding a folder named "Docs",
`createFolder` inserts a second "Docs" under the same parent instead of
failing with `Conflict` (two rows named "Docs" under parent 1 exist
afterwards, although `checkFoldernameExist` reported the collision), and
`createFolder` under the nonexistent parent 99 also succeeds instead of
failing with `InvalidParent`. -/
theorem C6_counterexample :
    ((createFolder (createFolder storeHome "Docs" 1 (some 1)) "Docs" 1
        (some 1)).folders.filter
      (fun f => f.name == "Docs" && f.parentId == some 1)).length = 2 ∧
    checkFoldernameExist (createFolder storeHome "Docs" 1 (some 1)) "Docs"
      (some 1) = true ∧
    (createFolder emptyStore "X" 1 (some 99)).folders = [⟨1, "X", 1, some 99⟩] := by
  refine ⟨?_, ?_, ?_⟩ <;> decide

/-- C6 amended: `createFolder` inserts the new Folder row unconditionally —
it performs no `Conflict` and no `InvalidParent` check itself; the
sibling-name collision predicate exists separately as
`checkFoldernameExist(name, parentId)`, which is true exactly when some
folder row with that name and parent exists (and in particular is true right
after the insertion). -/
theorem C6_amended (s : Store) (name : String) (userId : Nat)
    (parentId : Option Nat) :
    (createFolder s name userId parentId).folders =
      s.folders ++ [⟨s.nextFolderId, name, userId, parentId⟩] ∧
    (checkFoldernameExist s name parentId = true ↔
      ∃ f ∈ s.folders, f.name = name ∧ f.parentId = parentId) ∧
    checkFoldernameExist (createFolder s name userId parentId) name parentId
      = true := by
  refine ⟨rfl, ?_, ?_⟩
  · unfold checkFoldernameExist
    simp [List.find?_isSome]
  · unfold checkFoldernameExist createFolder
    simp only [List.find?_isSome]
    refine ⟨⟨s.nextFolderId, name, userId, parentId⟩, ?_, ?_⟩
    · simp
    · simp

/-- C8 counterexample: on a store whose only folder is Home(1),
`createShareLink` succeeds for the nonexistent target folder 99 and for an
expiry that is already in the past, inserting and returning the link —
no `InvalidTarget` failure and no future-expiry requirement. -/
theorem C8_counterexample :
    (storeHome.folders.any (fun f => f.id == 99)) = false ∧
    (createShareLink storeHome 99 (-1)).1 = ⟨1, 99, -1⟩ ∧
    (createShareLink storeHome 99 (-1)).2.shareLinks = [⟨1, 99, -1⟩] := by
  refine ⟨?_, ?_, ?_⟩ <;> decide

/-- C8 amended: `createShareLink` unconditionally inserts and returns a
ShareLink carrying exactly the given `folderId` and `expiresAt` (with the
next counter value as id), touching no folder row and checking neither
target existence nor expiry; under the id-freshness invariant the inserted
link is immediately retrievable through `findShareLink`. -/
theorem C8_amended (s : Store) (folderId : Nat) (expiresAt : Int)
    (hfresh : LinkIdsFresh s) :
    (createShareLink s folderId expiresAt).1 =
      ⟨s.nextLinkId, folderId, expiresAt⟩ ∧
    (createShareLink s folderId expiresAt).2.shareLinks =
      s.shareLinks ++ [⟨s.nextLinkId, folderId, expiresAt⟩] ∧
    (createShareLink s folderId expiresAt).2.folders = s.folders ∧
    findShareLink (createShareLink s folderId expiresAt).2 s.nextLinkId =
      some ⟨s.nextLinkId, folderId, expiresAt⟩ := by
  refine ⟨rfl, rfl, rfl, ?_⟩
  show (s.shareLinks ++ [(⟨s.nextLinkId, folderId, expiresAt⟩ : ShareLink)]).find?
    (fun l => l.id == s.nextLinkId) = _
  rw [List.find?_append]
  have h1 : s.shareLinks.find? (fun l => l.id == s.nextLinkId) = none := by
    rw [List.find?_eq_none]
    intro lk hlk
    have := hfresh lk hlk
    simp only [beq_iff_eq]
    omega
  rw [h1]
  simp

/-- C8 amended, witness at a concrete input: the empty link table of
`storeHome` trivially satisfies the freshness invariant, and creating a link
for folder 1 expiring at time 5 returns link ⟨1, 1, 5⟩ which resolves. -/
theorem C8_amended_witness :
    LinkIdsFresh storeHome ∧
    ((createShareLink storeHome 1 5).1 = ⟨storeHome.nextLinkId, 1, 5⟩ ∧
     (createShareLink storeHome 1 5).2.shareLinks =
       storeHome.shareLinks ++ [⟨storeHome.nextLinkId, 1, 5⟩] ∧
     (createShareLink storeHome 1 5).2.folders = storeHome.folders ∧
     findShareLink (createShareLink storeHome 1 5).2 storeHome.nextLinkId =
       some ⟨storeHome.nextLinkId, 1, 5⟩) := by
  have hfresh : LinkIdsFresh storeHome := by
    intro lk hlk
    simp [storeHome] at hlk
  exact ⟨hfresh, C8_amended storeHome 1 5 hfresh⟩

/-- C1 counterexample: in storeHAB (Home(1) ← A(2) ← B(3)), folder 3 is a
descendant of folder 2, and `findParentFolders` accordingly offers only
Home(1) as a valid move target for 2 — yet `updateFolder` moves 2 under 3
successfully, changing its `parentId` to 3 and creating a cycle, instead of
failing with `CycleRejected` and leaving the `parentId` unchanged. -/
theorem C1_counterexample :
    findDescendantFolders storeHAB 4 2 = some [3] ∧
    findParentFolders storeHAB 4 1 2 = some [⟨1, "Home", 1, none⟩] ∧
    updateFolder storeHAB 2 "A" (some 3) =
      some (⟨2, "A", 1, some 3⟩,
        ⟨[⟨1, "Home", 1, none⟩, ⟨2, "A", 1, some 3⟩, ⟨3, "B", 1, some 2⟩],
          [], [], 4, 1⟩) := by
  refine ⟨?_, ?_, ?_⟩ <;> decide

/-- C1 amended: `updateFolder` never consults `validMoveTargets` and has no
`CycleRejected` outcome: whenever the folder exists, the update succeeds for
every provided `newParentId` — even one equal to the folder itself or to one
of its descendants — and sets the folder's `parentId` to the JS-normalized
value `newParentId || null`; `findParentFolders` computes the cycle-safe
target set but `updateFolder` does not enforce it. -/
theorem C1_amended (s : Store) (folderId p : Nat) (newName : String)
    (f : Folder)
    (hfind : s.folders.find? (fun g => g.id == folderId) = some f)
    (_hcycle : p = folderId ∨ Relation.TransGen (childOf s) folderId p) :
    ∃ f' s', updateFolder s folderId newName (some p) = some (f', s') ∧
      f'.id = f.id ∧ f'.name = newName ∧ f'.parentId = orNull (some p) := by
  refine ⟨{ f with name := newName, parentId := orNull (some p) },
    { s with folders := s.folders.map (fun g =>
      if g.id == folderId then
        { g with name := newName, parentId := orNull (some p) } else g) }, ?_,
    rfl, rfl, rfl⟩
  unfold updateFolder
  rw [hfind]

/-- C1 amended, witness at a concrete input: moving folder 2 of storeHAB
under its descendant 3 succeeds and re-parents it to 3. -/
theorem C1_amended_witness :
    storeHAB.folders.find? (fun g => g.id == 2) = some ⟨2, "A", 1, some 1⟩ ∧
    (3 = 2 ∨ Relation.TransGen (childOf storeHAB) 2 3) ∧
    (∃ f' s', updateFolder storeHAB 2 "A" (some 3) = some (f', s') ∧
      f'.id = (⟨2, "A", 1, some 1⟩ : Folder).id ∧ f'.name = "A" ∧
      f'.parentId = orNull (some 3)) := by
  have h1 : storeHAB.folders.find? (fun g => g.id == 2) =
      some ⟨2, "A", 1, some 1⟩ := by decide
  have h2 : (3 = 2 ∨ Relation.TransGen (childOf storeHAB) 2 3) :=
    Or.inr (Relation.TransGen.single ⟨⟨3, "B", 1, some 2⟩, by decide, rfl, rfl⟩)
  exact ⟨h1, h2, C1_amended storeHAB 2 3 "A" ⟨2, "A", 1, some 1⟩ h1 h2⟩

/-- C3 counterexample: starting from an empty store, the exposed operations
createHomeFolder(1), createFolder("Docs", 1, Home) and then
updateFolder(Docs, "Docs", null) leave user 1 with TWO rootless folders:
the null `newParentId` clears Docs's parent instead of keeping it. -/
theorem C3_counterexample :
    (updateFolder (createFolder (createHomeFolder emptyStore 1) "Docs" 1
        (some 1)) 2 "Docs" none).map
      (fun r => (r.2.folders.filter
        (fun f => f.userId == 1 && f.parentId == none)).length) = some 2 := by
  decide


theorem countP_map_update_once {α : Type} (p : α → Bool) (upd : α → α) :
    ∀ (l : List α) (f : α), l.Nodup → f ∈ l →
      (∀ g ∈ l, g ≠ f → upd g = g) → p f = false → p (upd f) = true →
      l.countP (fun g => p (upd g)) = l.countP p + 1
  | [], f, _, hf, _, _, _ => absurd hf (List.not_mem_nil f)
  | a :: t, f, hnodup, hf, hfix, hpf, hpuf => by
      obtain ⟨hat, hnt⟩ := List.nodup_cons.mp hnodup
      rcases List.mem_cons.mp hf with heq | hft
      · subst heq
        rw [List.countP_cons, List.countP_cons]
        have ht : ∀ g ∈ t, p (upd g) = p g := by
          intro g hg
          rw [hfix g (List.mem_cons_of_mem _ hg) (fun he => hat (he ▸ hg))]
        rw [show t.countP (fun g => p (upd g)) = t.countP p from
          List.countP_congr (fun x hx => by rw [ht x hx])]
        simp [hpuf, hpf]
      · have hanef : a ≠ f := fun he => hat (he ▸ hft)
        rw [List.countP_cons, List.countP_cons,
          hfix a (List.mem_cons_self _ _) hanef]
        rw [countP_map_update_once p upd t f hnt hft
          (fun g hg hne => hfix g (List.mem_cons_of_mem _ hg) hne) hpf hpuf]
        omega

/-- C3 amended: `updateFolder` with a null/absent `newParentId` sets the
folder's `parentId` to null unconditionally rather than keeping the current
parent; applied to any folder that has a parent, it increases the number of
rootless folders of that folder's owner by one, so the one-root-per-user
invariant is not preserved by the exposed operations. -/
theorem C3_amended (s : Store) (folderId : Nat) (newName : String) (f : Folder)
    (hu : UniqueIds s)
    (hfind : s.folders.find? (fun g => g.id == folderId) = some f)
    (hpar : f.parentId ≠ none) :
    ∃ f' s', updateFolder s folderId newName none = some (f', s') ∧
      f'.parentId = none ∧ f'.id = f.id ∧
      s'.folders.countP (fun g => g.userId == f.userId && g.parentId == none) =
        s.folders.countP (fun g => g.userId == f.userId && g.parentId == none)
          + 1 := by
  have hfmem : f ∈ s.folders := List.mem_of_find?_eq_some hfind
  have hfid : f.id = folderId := by
    simpa using (List.find?_eq_some.mp hfind).1
  refine ⟨{ f with name := newName, parentId := orNull none },
    { s with folders := s.folders.map (fun g =>
      if g.id == folderId then
        { g with name := newName, parentId := orNull none } else g) }, ?_,
    rfl, rfl, ?_⟩
  · unfold updateFolder
    rw [hfind]
  · show (s.folders.map (fun g =>
        if g.id == folderId then
          { g with name := newName, parentId := orNull none } else g)).countP _ = _
    rw [List.countP_map]
    have hun : (s.folders.map (fun r => r.id)).Nodup := hu
    have hrows : s.folders.Nodup := List.Nodup.of_map (fun r => r.id) hun
    have hkey : ∀ g ∈ s.folders, g ≠ f →
        (if g.id == folderId then
          { g with name := newName, parentId := orNull none } else g) = g := by
      intro g hg hne
      have hgid : ¬(g.id = folderId) := by
        intro hgid
        apply hne
        have hun : (s.folders.map (fun r => r.id)).Nodup := hu
        exact List.inj_on_of_nodup_map hun hg hfmem (by rw [hgid, hfid])
      simp [hgid]
    have hpf : ((fun g : Folder =>
        g.userId == f.userId && g.parentId == none) f) = false := by
      cases hp : f.parentId with
      | none => exact absurd hp hpar
      | some q => simp [hp]
    have hpuf : ((fun g : Folder => g.userId == f.userId && g.parentId == none)
        (if f.id == folderId then
          { f with name := newName, parentId := orNull none } else f)) = true := by
      simp [hfid, orNull]
    exact countP_map_update_once
      (fun g : Folder => g.userId == f.userId && g.parentId == none)
      (fun g => if g.id == folderId then
        { g with name := newName, parentId := orNull none } else g)
      s.folders f hrows hfmem hkey hpf hpuf

/-- C3 amended, witness at a concrete input: clearing the parent of folder 2
of storeHAB (whose parent is Home(1)) takes user 1 from one rootless folder
to two. -/
theorem C3_amended_witness :
    UniqueIds storeHAB ∧
    storeHAB.folders.find? (fun g => g.id == 2) = some ⟨2, "A", 1, some 1⟩ ∧
    (⟨2, "A", 1, some 1⟩ : Folder).parentId ≠ none ∧
    (∃ f' s', updateFolder storeHAB 2 "Moved" none = some (f', s') ∧
      f'.parentId = none ∧ f'.id = (⟨2, "A", 1, some 1⟩ : Folder).id ∧
      s'.folders.countP (fun g =>
        g.userId == (⟨2, "A", 1, some 1⟩ : Folder).userId && g.parentId == none) =
      storeHAB.folders.countP (fun g =>
        g.userId == (⟨2, "A", 1, some 1⟩ : Folder).userId && g.parentId == none)
        + 1) := by
  have h0 : UniqueIds storeHAB := (by decide : (ids storeHAB).Nodup)
  have h1 : storeHAB.folders.find? (fun g => g.id == 2) =
      some ⟨2, "A", 1, some 1⟩ := by decide
  have h2 : (⟨2, "A", 1, some 1⟩ : Folder).parentId ≠ none := by decide
  exact ⟨h0, h1, h2, C3_amended storeHAB 2 "Moved" ⟨2, "A", 1, some 1⟩ h0 h1 h2⟩

theorem contains_eq_decide_mem (l : List Nat) (x : Nat) :
    l.contains x = decide (x ∈ l) := by
  induction l with
  | nil => simp
  | cons a t ih =>
      rw [List.contains_cons, ih]
      cases h : x == a <;> simp_all [List.mem_cons]

/-- C7: on an acyclic store, the descendant walk with the always-sufficient
allowance of `folders.length + 1` frames returns a (finite) list that never
contains the start folder itself and whose members are exactly the folders
transitively reachable from it along the `parentId` child relation; the set
of such reachable folders is finite. -/
theorem C7_descendants_spec (s : Store) (folderId : Nat) (hA : Acyclic s) :
    ∃ l, findDescendantFolders s (s.folders.length + 1) folderId = some l ∧
      folderId ∉ l ∧
      (∀ x, x ∈ l ↔ Relation.TransGen (childOf s) folderId x) ∧
      {x | Relation.TransGen (childOf s) folderId x}.Finite := by
  obtain ⟨rank, hr⟩ := hA
  obtain ⟨l, hl⟩ := Option.isSome_iff_exists.mp
    (findChildrenF_isSome hr (s.folders.length + 1) folderId
      (Nat.lt_succ_of_le (over_le s rank folderId)))
  refine ⟨l, hl, ?_, mem_findChildren_iff hl, ?_⟩
  · intro hmem
    exact not_transGen_self hr folderId
      ((mem_findChildren_iff hl folderId).mp hmem)
  · apply Set.Finite.subset l.finite_toSet
    intro x hx
    exact (mem_findChildren_iff hl x).mpr hx

/-- C7, witness at a concrete input: in storeHAB the descendants of folder 2
are exactly those reachable from it, and 2 is not among them. -/
theorem C7_witness :
    Acyclic storeHAB ∧
    (∃ l, findDescendantFolders storeHAB (storeHAB.folders.length + 1) 2 =
        some l ∧ 2 ∉ l ∧
      (∀ x, x ∈ l ↔ Relation.TransGen (childOf storeHAB) 2 x) ∧
      {x | Relation.TransGen (childOf storeHAB) 2 x}.Finite) := by
  have hA : Acyclic storeHAB := ⟨fun n => n, rankOkB_sound _ _ (by decide)⟩
  exact ⟨hA, C7_descendants_spec storeHAB 2 hA⟩

/-- C5: `findParentFolders` (the valid-move-target computation) returns
exactly the folders owned by the user minus the folder itself and its
descendants: a folder row is in the result precisely when it belongs to the
store, is owned by the user, is not the moved folder, and is not reachable
from it along the child relation. -/
theorem C5_validMoveTargets_spec (s : Store) (userId folderId : Nat)
    (hA : Acyclic s) :
    ∃ res, findParentFolders s (s.folders.length + 1) userId folderId =
        some res ∧
      ∀ G : Folder, G ∈ res ↔ (G ∈ s.folders ∧ G.userId = userId ∧
        G.id ≠ folderId ∧ ¬ Relation.TransGen (childOf s) folderId G.id) := by
  obtain ⟨rank, hr⟩ := hA
  obtain ⟨l, hl⟩ := Option.isSome_iff_exists.mp
    (findChildrenF_isSome hr (s.folders.length + 1) folderId
      (Nat.lt_succ_of_le (over_le s rank folderId)))
  refine ⟨s.folders.filter (fun f =>
      f.userId == userId && !((l ++ [folderId]).contains f.id)), ?_, ?_⟩
  · unfold findParentFolders findDescendantFolders
    rw [hl]
    rfl
  · intro G
    simp only [List.mem_filter, contains_eq_decide_mem, Bool.and_eq_true,
      beq_iff_eq, Bool.not_eq_true', decide_eq_false_iff_not]
    constructor
    · rintro ⟨hmem, huid, hnotin⟩
      refine ⟨hmem, huid, ?_, ?_⟩
      · intro heq
        exact hnotin (List.mem_append.mpr (Or.inr (by simp [heq])))
      · intro ht
        exact hnotin (List.mem_append.mpr
          (Or.inl ((mem_findChildren_iff hl G.id).mpr ht)))
    · rintro ⟨hmem, huid, hne, hnt⟩
      refine ⟨hmem, huid, ?_⟩
      intro hmm
      rcases List.mem_append.mp hmm with h | h
      · exact hnt ((mem_findChildren_iff hl G.id).mp h)
      · exact hne (by simpa using h)

/-- C5, witness at a concrete input: the valid move targets of folder 2 in
storeHAB are characterized as stated. -/
theorem C5_witness :
    Acyclic storeHAB ∧
    (∃ res, findParentFolders storeHAB (storeHAB.folders.length + 1) 1 2 =
        some res ∧
      ∀ G : Folder, G ∈ res ↔ (G ∈ storeHAB.folders ∧ G.userId = 1 ∧
        G.id ≠ 2 ∧ ¬ Relation.TransGen (childOf storeHAB) 2 G.id)) := by
  have hA : Acyclic storeHAB := ⟨fun n => n, rankOkB_sound _ _ (by decide)⟩
  exact ⟨hA, C5_validMoveTargets_spec storeHAB 1 2 hA⟩

/-- C2: on an acyclic store with unique ids, `deleteFolder` of an existing
folder F completes (with the always-sufficient stack allowance) and removes
exactly the subtree of F: afterwards the surviving folder rows are those
outside F-and-its-descendants, the surviving files are those whose folder is
outside it, and the surviving share links are those targeting outside it;
the recorded deletion order puts, for every subtree node n, the files of n
first, then every child's folder-record deletion (children before their
parent), then n's share links, then n's folder record. -/
theorem C2_deleteFolder_cascade (s : Store) (folderId : Nat) (hA : Acyclic s)
    (hu : UniqueIds s) (hmem : folderId ∈ ids s) :
    ∃ ds s' tr,
      findDescendantFolders s (s.folders.length + 1) folderId = some ds ∧
      (∀ x, x ∈ ds ↔ Relation.TransGen (childOf s) folderId x) ∧
      deleteFolderF (s.folders.length + 1) s folderId = some (s', tr) ∧
      s'.folders = s.folders.filter
        (fun row => !(decide (row.id ∈ folderId :: ds))) ∧
      s'.files = s.files.filter
        (fun fl => !(decide (fl.folderId ∈ folderId :: ds))) ∧
      s'.shareLinks = s.shareLinks.filter
        (fun lk => !(decide (lk.folderId ∈ folderId :: ds))) ∧
      TraceOk s (folderId :: ds) tr := by
  obtain ⟨rank, hr⟩ := hA
  obtain ⟨ds, s', tr, h1, h3, h4, h5, h6, _, _, h8⟩ :=
    deleteFolderF_spec (s.folders.length + 1) s folderId rank hr hu hmem
      (Nat.lt_succ_of_le (over_le s rank folderId))
  exact ⟨ds, s', tr, h1, fun x => mem_findChildren_iff h1 x, h3, h4, h5, h6, h8⟩

/-- C2, witness at a concrete input: deleting Home(1) of storeDel cascades
over Docs(2) and Reports(3), the file in Docs and the link targeting
Reports. -/
theorem C2_witness :
    Acyclic storeDel ∧ UniqueIds storeDel ∧ 1 ∈ ids storeDel ∧
    (∃ ds s' tr,
      findDescendantFolders storeDel (storeDel.folders.length + 1) 1 =
        some ds ∧
      (∀ x, x ∈ ds ↔ Relation.TransGen (childOf storeDel) 1 x) ∧
      deleteFolderF (storeDel.folders.length + 1) storeDel 1 = some (s', tr) ∧
      s'.folders = storeDel.folders.filter
        (fun row => !(decide (row.id ∈ 1 :: ds))) ∧
      s'.files = storeDel.files.filter
        (fun fl => !(decide (fl.folderId ∈ 1 :: ds))) ∧
      s'.shareLinks = storeDel.shareLinks.filter
        (fun lk => !(decide (lk.folderId ∈ 1 :: ds))) ∧
      TraceOk storeDel (1 :: ds) tr) := by
  have hA : Acyclic storeDel := ⟨fun n => n, rankOkB_sound _ _ (by decide)⟩
  have hu : UniqueIds storeDel := (by decide : (ids storeDel).Nodup)
  have hm : 1 ∈ ids storeDel := by decide
  exact ⟨hA, hu, hm, C2_deleteFolder_cascade storeDel 1 hA hu hm⟩

/-- C10: `findFolder` loads the ancestor chain truncated at exactly four
parent levels: its ancestor component equals the full parent chain cut to
the first four entries (so parent, grandparent, great-grandparent and
great-great-grandparent are included when they exist), every ancestor in the
full chain is a folder present in the store, and every ancestor beyond the
fourth parent is absent from the loaded component even though it exists in
the store. -/
theorem C10_ancestors_truncated (s : Store) (folderId : Nat) (f : Folder)
    (hA : Acyclic s) (hpp : ParentsPresent s)
    (hrow : findFolderRow s folderId = some f) :
    ∃ chain, ancestorChain s (s.folders.length + 1) f.parentId = some chain ∧
      findFolder s folderId = some (f,
        s.folders.filter (fun g => g.parentId == some folderId),
        s.files.filter (fun fl => fl.folderId == folderId),
        chain.take 4) ∧
      (∀ a ∈ chain, a ∈ ids s) ∧
      (∀ a ∈ chain.drop 4, a ∉ chain.take 4) := by
  obtain ⟨rank, hr⟩ := hA
  have hsome : (ancestorChain s (s.folders.length + 1) f.parentId).isSome := by
    apply ancestorChain_isSome hr
    intro p _
    exact Nat.lt_succ_of_le (under_le s rank p)
  obtain ⟨chain, hchain⟩ := Option.isSome_iff_exists.mp hsome
  refine ⟨chain, hchain, ?_, ?_, ?_⟩
  · unfold findFolder
    rw [hrow]
    simp only [Option.map_some']
    rw [loadAncestors_eq_take 4 hchain]
  · apply ancestorChain_mem_ids hpp hchain
    intro p hp
    exact hpp f (List.mem_of_find?_eq_some hrow) p hp
  · have hpair := (ancestorChain_ranks hr hchain).1
    have hnodup : chain.Nodup :=
      hpair.imp (fun h heq => absurd (heq ▸ h) (lt_irrefl _))
    intro a hdrop htake
    have hsplit : chain.take 4 ++ chain.drop 4 = chain :=
      List.take_append_drop 4 chain
    have hnd : (chain.take 4 ++ chain.drop 4).Nodup := hsplit.symm ▸ hnodup
    exact (List.nodup_append.mp hnd).2.2 htake hdrop

/-- C10, witness at a concrete input: for folder 6 of the six-deep chain
1 ← 2 ← 3 ← 4 ← 5 ← 6, the loaded ancestors are [5, 4, 3, 2] and the root 1
— the fifth ancestor — exists in the store but is absent from the result. -/
theorem C10_witness :
    Acyclic (chainStore 6) ∧ ParentsPresent (chainStore 6) ∧
    findFolderRow (chainStore 6) 6 = some ⟨6, "f", 1, some 5⟩ ∧
    (∃ chain, ancestorChain (chainStore 6) ((chainStore 6).folders.length + 1)
        (⟨6, "f", 1, some 5⟩ : Folder).parentId = some chain ∧
      findFolder (chainStore 6) 6 = some (⟨6, "f", 1, some 5⟩,
        (chainStore 6).folders.filter (fun g => g.parentId == some 6),
        (chainStore 6).files.filter (fun fl => fl.folderId == 6),
        chain.take 4) ∧
      (∀ a ∈ chain, a ∈ ids (chainStore 6)) ∧
      (∀ a ∈ chain.drop 4, a ∉ chain.take 4)) := by
  have hA : Acyclic (chainStore 6) := ⟨fun n => n, rankOkB_sound _ _ (by decide)⟩
  have hpp : ParentsPresent (chainStore 6) := parentsPresentB_sound _ (by decide)
  have hrow : findFolderRow (chainStore 6) 6 = some ⟨6, "f", 1, some 5⟩ := by
    decide
  exact ⟨hA, hpp, hrow, C10_ancestors_truncated (chainStore 6) 6
    ⟨6, "f", 1, some 5⟩ hA hpp hrow⟩
